import Mathlib

/-!
Shallow embedding of the two components of the repository:
  * `binaryTreeFromPreInOrderTraversal.py` — reconstruction of a binary tree
    from its preorder and inorder traversals, in three variants
    (`buildTree`, `buildTree_v2`, `buildTree_v3`);
  * `isValidBst.py` — validation of the binary-search-tree invariant
    (`isValidBST`, with its bounds-propagating `helper`).
Python's `None` child is the `nil` constructor; a raised exception is an
error value (`Option`/`BuildResult`); the Python `dict` built from the
inorder list is a last-occurrence index function; the `float('-inf')` /
`float('inf')` sentinels are `Option Int` bounds (`none` = unbounded,
which is exactly how an infinite float compares against every `int`).
-/

namespace Trees

/-- Binary tree of integer keys; `nil` models Python's `None` child slot
(`TreeNode` with `val`, `left`, `right`). -/
inductive Tree where
  | nil : Tree
  | node (val : Int) (left : Tree) (right : Tree) : Tree
deriving DecidableEq, Repr

/-- Number of nodes. -/
def size : Tree → Nat
  | .nil => 0
  | .node _ l r => 1 + size l + size r

/-- Preorder traversal: root, left, right. -/
def preorderOf : Tree → List Int
  | .nil => []
  | .node v l r => v :: (preorderOf l ++ preorderOf r)

/-- Inorder traversal: left, root, right. -/
def inorderOf : Tree → List Int
  | .nil => []
  | .node v l r => inorderOf l ++ v :: inorderOf r

/-- All keys stored in a tree. -/
def keys : Tree → List Int
  | .nil => []
  | .node v l r => v :: (keys l ++ keys r)

/-! ### isValidBst.py -/

/-- `low < v` where `low : Option Int`, `none` standing for `float('-inf')`
(strictly below every integer). -/
def okLow : Option Int → Int → Bool
  | none, _ => true
  | some lo, v => decide (lo < v)

/-- `v < high` where `high : Option Int`, `none` standing for `float('inf')`
(strictly above every integer). -/
def okHigh : Int → Option Int → Bool
  | _, none => true
  | v, some hi => decide (v < hi)

/-- `Solution.helper` of isValidBst.py: an empty subtree is valid; a node is
valid iff `low < node.val < high` and both children are valid with the
tightened bounds. -/
def helper : Tree → Option Int → Option Int → Bool
  | .nil, _, _ => true
  | .node v l r, low, high =>
    if okLow low v && okHigh v high then
      helper l low (some v) && helper r (some v) high
    else false

/-- `Solution.isValidBST` of isValidBst.py: start from the unbounded
interval `(float('-inf'), float('inf'))`. -/
def isValidBST (root : Tree) : Bool := helper root none none

/-- The specification's BST invariant: at every node, all keys of the left
subtree are strictly smaller and all keys of the right subtree strictly
larger than the node's key, transitively over whole subtrees. -/
def IsBST : Tree → Prop
  | Tree.nil => True
  | Tree.node v l r =>
      (∀ k ∈ keys l, k < v) ∧ (∀ k ∈ keys r, v < k) ∧ IsBST l ∧ IsBST r

instance instDecidableIsBST : (t : Tree) → Decidable (IsBST t)
  | Tree.nil => by
      unfold IsBST
      infer_instance
  | Tree.node v l r => by
      have dl := instDecidableIsBST l
      have dr := instDecidableIsBST r
      unfold IsBST
      infer_instance

/-! ### binaryTreeFromPreInOrderTraversal.py, approach 1 -/

/-- Index of the last occurrence of `v` in the list. This models the Python
dict comprehension `{val: idx for idx, val in enumerate(inorder)}`, in which
a later duplicate overwrites an earlier one; `none` models a `KeyError` on
lookup. -/
def lastIdxOf : List Int → Int → Option Nat
  | [], _ => none
  | a :: as, v =>
    match lastIdxOf as v with
    | some i => some (i + 1)
    | none => if a = v then some 0 else none

/-- Outcome of one call of `Solution._build_recursive`.
`ok t k`: the call returned subtree `t` having advanced `self.preorder_idx`
by `k`; `idxErr k`: `IndexError` at `preorder[self.preorder_idx]` after
advancing the cursor by `k`; `keyErr k`: `KeyError` at
`inorder_index_map[root_val]` after advancing by `k` (the cursor is
incremented before the lookup, so the failing call itself contributes 1);
`fuelOut`: the structural recursion fuel ran out — proved unreachable for
the fuel `buildTree` supplies (`buildRecF_ne_fuelOut`). -/
inductive BuildResult where
  | ok (t : Tree) (consumed : Nat)
  | idxErr (consumed : Nat)
  | keyErr (consumed : Nat)
  | fuelOut
deriving DecidableEq, Repr

/-- `Solution._build_recursive`, with the shared mutable cursor made
explicit: `cur` is the value of `self.preorder_idx` on entry and the result
carries how far the call advanced it. `m` is the inorder index map, `lb`/`rb`
are `left_bound`/`right_bound` (integers: the initial right bound is `-1`
for an empty inorder list). The first `Nat` is recursion fuel. -/
def buildRecF (preorder : List Int) (m : Int → Option Nat) :
    Nat → Int → Int → Nat → BuildResult
  | 0, _, _, _ => .fuelOut
  | f + 1, lb, rb, cur =>
    if lb > rb then .ok .nil 0
    else
      match preorder.get? cur with
      | none => .idxErr 0
      | some rootVal =>
        match m rootVal with
        | none => .keyErr 1
        | some ri =>
          match buildRecF preorder m f lb ((ri : Int) - 1) (cur + 1) with
          | .ok l k1 =>
            (match buildRecF preorder m f ((ri : Int) + 1) rb (cur + 1 + k1) with
             | .ok r k2 => .ok (.node rootVal l r) (1 + k1 + k2)
             | .idxErr k2 => .idxErr (1 + k1 + k2)
             | .keyErr k2 => .keyErr (1 + k1 + k2)
             | .fuelOut => .fuelOut)
          | .idxErr k1 => .idxErr (1 + k1)
          | .keyErr k1 => .keyErr (1 + k1)
          | .fuelOut => .fuelOut

/-- `Solution.buildTree` (approach 1): build the inorder index map, reset the
cursor to 0, recurse over the full range `[0, len(inorder) - 1]`. `some t`
is a normal return (`t` possibly `nil`); `none` is a raised exception. -/
def buildTree (preorder inorder : List Int) : Option Tree :=
  match buildRecF preorder (lastIdxOf inorder) (preorder.length + 1)
      0 ((inorder.length : Int) - 1) 0 with
  | .ok t _ => some t
  | _ => none

/-- The `Solution` object's instance state across calls: the value of the
`self.preorder_idx` attribute (`none` before any call has set it). A call of
`buildTree` on such an instance first resets the attribute to 0 (line 64 of
the source), runs, and leaves the attribute at the position the recursion
advanced it to — also when an exception escapes. The returned pair is
(result of the call, attribute value after the call). -/
def buildTreeCall (st : Option Nat) (preorder inorder : List Int) :
    Option Tree × Option Nat :=
  match st, buildRecF preorder (lastIdxOf inorder) (preorder.length + 1)
      0 ((inorder.length : Int) - 1) 0 with
  | _, .ok t k => (some t, some k)
  | _, .idxErr k => (none, some k)
  | _, .keyErr k => (none, some k)
  | _, .fuelOut => (none, none)

/-! ### binaryTreeFromPreInOrderTraversal.py, approach 2 -/

/-- Scan `l` for `v` from position `s`, for at most `rem` further positions;
first match wins. Running past the end of the list or out of positions is
`none` (Python `ValueError`). -/
def scanIdx (l : List Int) (v : Int) : Nat → Nat → Option Nat
  | _, 0 => none
  | s, rem + 1 =>
    match l.get? s with
    | none => none
    | some a => if a = v then some s else scanIdx l v (s + 1) rem

/-- Python's `list.index(v, start, stop)`: first index of `v` in
`[start, stop)`, where a negative bound counts from the end of the list
(clamped at 0); `none` models the `ValueError` on a failed search. -/
def pyIndex (l : List Int) (v : Int) (start stop : Int) : Option Nat :=
  let s : Nat := if start < 0 then (start + l.length).toNat else start.toNat
  let e : Nat := if stop < 0 then (stop + l.length).toNat else stop.toNat
  scanIdx l v s (e - s)

/-- `Solution._build_without_map`: same recursion as `_build_recursive` but
the root's inorder position is found by `inorder.index(root_val, left_bound,
right_bound + 1)`; `keyErr` here stands for that `ValueError`. -/
def buildRecV2 (preorder inorder : List Int) :
    Nat → Int → Int → Nat → BuildResult
  | 0, _, _, _ => .fuelOut
  | f + 1, lb, rb, cur =>
    if lb > rb then .ok .nil 0
    else
      match preorder.get? cur with
      | none => .idxErr 0
      | some rootVal =>
        match pyIndex inorder rootVal lb (rb + 1) with
        | none => .keyErr 1
        | some ri =>
          match buildRecV2 preorder inorder f lb ((ri : Int) - 1) (cur + 1) with
          | .ok l k1 =>
            (match buildRecV2 preorder inorder f ((ri : Int) + 1) rb (cur + 1 + k1) with
             | .ok r k2 => .ok (.node rootVal l r) (1 + k1 + k2)
             | .idxErr k2 => .idxErr (1 + k1 + k2)
             | .keyErr k2 => .keyErr (1 + k1 + k2)
             | .fuelOut => .fuelOut)
          | .idxErr k1 => .idxErr (1 + k1)
          | .keyErr k1 => .keyErr (1 + k1)
          | .fuelOut => .fuelOut

/-- `Solution.buildTree_v2` (approach 2, linear scan instead of the map). -/
def buildTree_v2 (preorder inorder : List Int) : Option Tree :=
  match buildRecV2 preorder inorder (preorder.length + 1)
      0 ((inorder.length : Int) - 1) 0 with
  | .ok t _ => some t
  | _ => none

/-! ### binaryTreeFromPreInOrderTraversal.py, approach 3

The iterative variant mutates `TreeNode` objects after creation
(`parent.right = node`, `stack[-1].left = node`), so it is embedded against
an explicit heap: node `i` is the record created for `preorder[i]`, children
are ids into the heap, and the final tree is read back from the heap. -/

/-- A `TreeNode` object of the iterative variant: its value and the ids of
its children in the heap (`none` = Python `None`). -/
structure NodeRec where
  val : Int
  left : Option Nat
  right : Option Nat
deriving DecidableEq, Repr

/-- State of the iterative loop: the heap of created nodes, the stack of
node ids (top first; Python's `stack[-1]` is the head), and `inorder_idx`. -/
structure V3State where
  heap : List NodeRec
  stack : List Nat
  ioIdx : Nat
deriving DecidableEq, Repr

/-- The inner `while stack and stack[-1].val == inorder[inorder_idx]` loop:
pop while the top matches the next inorder value, remembering the last
popped node in `parent`. `none` models an `IndexError` from
`inorder[inorder_idx]` (or a dangling stack id, which never occurs). -/
def popLoop (ino : List Int) (heap : List NodeRec) :
    List Nat → Nat → Option Nat → Option (Option Nat × List Nat × Nat)
  | [], ioIdx, parent => some (parent, [], ioIdx)
  | top :: rest, ioIdx, parent =>
    match heap.get? top with
    | none => none
    | some nr =>
      match ino.get? ioIdx with
      | none => none
      | some w =>
        if nr.val = w then popLoop ino heap rest (ioIdx + 1) (some top)
        else some (parent, top :: rest, ioIdx)

/-- One iteration of the `for i in range(1, len(preorder))` loop of
`buildTree_v3`, processing preorder value `v`: create the node, run the pop
loop, then attach the node as right child of the last popped parent, or as
left child of the stack top if nothing was popped (an empty stack there is
the `IndexError` of `stack[-1]`), and push it. -/
def v3Step (ino : List Int) (st : V3State) (v : Int) : Option V3State :=
  let nodeId := st.heap.length
  let heap0 := st.heap ++ [⟨v, none, none⟩]
  match popLoop ino heap0 st.stack st.ioIdx none with
  | none => none
  | some (parent, stack1, ioIdx1) =>
    match parent with
    | some p =>
      match heap0.get? p with
      | none => none
      | some pr =>
        some ⟨heap0.set p { pr with right := some nodeId }, nodeId :: stack1, ioIdx1⟩
    | none =>
      match stack1 with
      | [] => none
      | top :: _ =>
        match heap0.get? top with
        | none => none
        | some tr =>
          some ⟨heap0.set top { tr with left := some nodeId }, nodeId :: stack1, ioIdx1⟩

/-- Read the tree rooted at heap id `id` back out of the heap. The fuel
bounds the depth; every heap this program builds points strictly downward
(child ids exceed parent ids), so `heap.length` fuel always suffices. -/
def extract (heap : List NodeRec) : Nat → Nat → Option Tree
  | 0, _ => none
  | fuel + 1, id =>
    match heap.get? id with
    | none => none
    | some nr =>
      match (match nr.left with
             | none => some Tree.nil
             | some i => extract heap fuel i) with
      | none => none
      | some l =>
        match (match nr.right with
               | none => some Tree.nil
               | some i => extract heap fuel i) with
        | none => none
        | some r => some (Tree.node nr.val l r)

/-- `Solution.buildTree_v3` (approach 3, iterative with an explicit stack):
empty preorder returns `None`; otherwise the first preorder value becomes
the root, each later value is processed by `v3Step`, and the result is the
tree the heap holds at the root id 0. -/
def buildTree_v3 (preorder inorder : List Int) : Option Tree :=
  match preorder with
  | [] => some Tree.nil
  | v0 :: rest =>
    match rest.foldlM (fun st v => v3Step inorder st v)
        (⟨[⟨v0, none, none⟩], [0], 0⟩ : V3State) with
    | none => none
    | some st => extract st.heap st.heap.length 0

/-! ## Traversal and list lemmas -/

theorem length_inorderOf (t : Tree) : (inorderOf t).length = size t := by
  induction t with
  | nil => rfl
  | node v l r ihl ihr => simp [inorderOf, size, ihl, ihr]; omega

theorem length_preorderOf (t : Tree) : (preorderOf t).length = size t := by
  induction t with
  | nil => rfl
  | node v l r ihl ihr => simp [preorderOf, size, ihl, ihr]; omega

theorem lastIdxOf_eq_none_iff (l : List Int) (v : Int) :
    lastIdxOf l v = none ↔ v ∉ l := by
  induction l with
  | nil => simp [lastIdxOf]
  | cons a as ih =>
    simp only [lastIdxOf, List.mem_cons]
    cases h : lastIdxOf as v with
    | some i =>
      have hv : v ∈ as := by
        by_contra hc
        rw [← ih, h] at hc
        exact Option.noConfusion hc
      simp [hv]
    | none =>
      have hv : v ∉ as := ih.mp h
      by_cases hav : a = v
      · simp [hav]
      · rw [if_neg hav]
        simp only [eq_self_iff_true, true_iff]
        push_neg
        exact ⟨fun e => hav e.symm, hv⟩

theorem lastIdxOf_of_nodup {l : List Int} (h : l.Nodup) :
    ∀ {i : Nat} {v : Int}, l.get? i = some v → lastIdxOf l v = some i := by
  induction l with
  | nil => intro i v hv; simp [List.get?] at hv
  | cons a as ih =>
    intro i v hv
    rw [List.nodup_cons] at h
    obtain ⟨ha, hnd⟩ := h
    cases i with
    | zero =>
      simp only [List.get?] at hv
      injection hv with hv2
      subst hv2
      have h0 : lastIdxOf as a = none := (lastIdxOf_eq_none_iff as a).mpr ha
      simp [lastIdxOf, h0]
    | succ n =>
      simp only [List.get?] at hv
      have h1 := ih hnd hv
      simp [lastIdxOf, h1]

theorem get?_of_drop_eq {l t : List Int} {n : Nat} {a : Int}
    (h : l.drop n = a :: t) : l.get? n = some a := by
  have h2 := List.get?_drop l n 0
  rw [h] at h2
  simpa using h2.symm

theorem drop_succ_of_drop_eq {l t : List Int} {n : Nat} {a : Int}
    (h : l.drop n = a :: t) : l.drop (n + 1) = t := by
  have h2 : l.drop (n + 1) = (l.drop n).drop 1 := (List.drop_drop 1 n l).symm
  rw [h2, h]
  rfl

/-! ## Correctness of the hashmap-recursive builder (approach 1) -/

/-- Invariant of `_build_recursive` on the traversals of a real tree: when
the inorder range `[left_bound, right_bound]` covers exactly the inorder
segment of subtree `t` and the unconsumed preorder suffix starts with `t`'s
preorder, the call returns `t` and consumes exactly `size t` elements. -/
theorem buildRecF_ok {ino : List Int} (hnd : ino.Nodup) :
    ∀ (t : Tree) (f : Nat) (pre preSeg suf rest : List Int) (cur : Nat),
      ino = preSeg ++ (inorderOf t ++ suf) →
      pre.drop cur = preorderOf t ++ rest →
      size t < f →
      buildRecF pre (lastIdxOf ino) f (preSeg.length : Int)
        ((preSeg.length : Int) + (size t : Int) - 1) cur = .ok t (size t) := by
  intro t
  induction t with
  | nil =>
    intro f pre preSeg suf rest cur hino hpre hf
    obtain ⟨f', rfl⟩ : ∃ f', f = f' + 1 := ⟨f - 1, by omega⟩
    have hlt : (preSeg.length : Int) > (preSeg.length : Int) + (size Tree.nil : Int) - 1 := by
      simp [size]
    rw [buildRecF, if_pos hlt]
    rfl
  | node v l r ihl ihr =>
    intro f pre preSeg suf rest cur hino hpre hf
    obtain ⟨f', rfl⟩ : ∃ f', f = f' + 1 := ⟨f - 1, by omega⟩
    have hsz : size (Tree.node v l r) = 1 + size l + size r := rfl
    have hnb : ¬ ((preSeg.length : Int) > (preSeg.length : Int) + (size (Tree.node v l r) : Int) - 1) := by
      rw [hsz]; push_cast; omega
    rw [preorderOf] at hpre
    have hget : pre.get? cur = some v := get?_of_drop_eq (by rw [hpre]; rfl)
    have hvidx : ino.get? (preSeg.length + size l) = some v := by
      rw [hino]
      rw [List.get?_append_right (by omega)]
      have e0 : preSeg.length + size l - preSeg.length = size l := by omega
      rw [e0, inorderOf]
      rw [List.get?_append (by rw [List.length_append, length_inorderOf]; simp)]
      rw [List.get?_append_right (by rw [length_inorderOf])]
      rw [length_inorderOf]
      simp
    have hlast : lastIdxOf ino v = some (preSeg.length + size l) := lastIdxOf_of_nodup hnd hvidx
    have hpreL : pre.drop (cur + 1) = preorderOf l ++ (preorderOf r ++ rest) := by
      have h3 := drop_succ_of_drop_eq (l := pre) (n := cur) (a := v)
        (t := (preorderOf l ++ preorderOf r) ++ rest) (by rw [hpre]; rfl)
      rw [h3, List.append_assoc]
    have hinoL : ino = preSeg ++ (inorderOf l ++ (v :: inorderOf r ++ suf)) := by
      rw [hino, inorderOf]
      simp [List.append_assoc]
    have hL := ihl f' pre preSeg (v :: inorderOf r ++ suf) (preorderOf r ++ rest) (cur + 1)
      hinoL hpreL (by omega)
    have hpreR : pre.drop (cur + 1 + size l) = preorderOf r ++ rest := by
      have h2 : pre.drop (cur + 1 + size l) = (pre.drop (cur + 1)).drop (size l) :=
        (List.drop_drop (size l) (cur + 1) pre).symm
      rw [h2, hpreL, ← length_preorderOf l, List.drop_left]
    have hinoR : ino = (preSeg ++ (inorderOf l ++ [v])) ++ (inorderOf r ++ suf) := by
      rw [hino, inorderOf]
      simp [List.append_assoc]
    have hR := ihr f' pre (preSeg ++ (inorderOf l ++ [v])) suf rest (cur + 1 + size l)
      hinoR hpreR (by omega)
    have e1 : ((preSeg.length + size l : Nat) : Int) - 1 =
        (preSeg.length : Int) + (size l : Int) - 1 := by push_cast; ring
    have e2 : ((preSeg.length + size l : Nat) : Int) + 1 =
        ((preSeg ++ (inorderOf l ++ [v])).length : Int) := by
      simp [List.length_append, length_inorderOf]
      ring
    have e3 : (preSeg.length : Int) + (size (Tree.node v l r) : Int) - 1 =
        ((preSeg ++ (inorderOf l ++ [v])).length : Int) + (size r : Int) - 1 := by
      rw [hsz]
      simp [List.length_append, length_inorderOf]
      ring
    simp only [buildRecF]
    rw [if_neg hnb]
    simp only [hget, hlast]
    rw [e1]
    simp only [hL]
    rw [e2, e3]
    simp only [hR]
    rw [hsz]

/-- Faithfulness of the fuel: with more fuel than unconsumed preorder
elements, `buildRecF` never runs out — every recursive call consumes at
least one preorder element first, exactly as the Python recursion does. -/
theorem buildRecF_ne_fuelOut (pre : List Int) (m : Int → Option Nat) :
    ∀ (f : Nat) (lb rb : Int) (cur : Nat), pre.length - cur < f →
      buildRecF pre m f lb rb cur ≠ .fuelOut := by
  intro f
  induction f with
  | zero => intro lb rb cur h; exact absurd h (by omega)
  | succ f ih =>
    intro lb rb cur h
    rw [buildRecF]
    by_cases hb : lb > rb
    · rw [if_pos hb]; simp
    · rw [if_neg hb]
      cases hg : pre.get? cur with
      | none => simp
      | some rv =>
        have hcur : cur < pre.length := (List.get?_eq_some.mp hg).1
        cases hm : m rv with
        | none => simp [hm]
        | some ri =>
          have h1 : pre.length - (cur + 1) < f := by omega
          cases hL : buildRecF pre m f lb ((ri : Int) - 1) (cur + 1) with
          | ok l k1 =>
            have h2 : pre.length - (cur + 1 + k1) < f := by omega
            cases hR : buildRecF pre m f ((ri : Int) + 1) rb (cur + 1 + k1) with
            | ok r k2 => simp [hm, hL, hR]
            | idxErr k2 => simp [hm, hL, hR]
            | keyErr k2 => simp [hm, hL, hR]
            | fuelOut => exact absurd hR (ih _ _ _ h2)
          | idxErr k1 => simp [hm, hL]
          | keyErr k1 => simp [hm, hL]
          | fuelOut => exact absurd hL (ih _ _ _ h1)

/-- Top-level run of approach 1 on the traversals of a tree with distinct
values: the recursion returns the tree itself, consuming all of preorder. -/
theorem buildRecF_run (t : Tree) (h : (inorderOf t).Nodup) :
    buildRecF (preorderOf t) (lastIdxOf (inorderOf t)) ((preorderOf t).length + 1)
      0 (((inorderOf t).length : Int) - 1) 0 = .ok t (size t) := by
  have hmain := buildRecF_ok h t ((preorderOf t).length + 1) (preorderOf t) [] [] [] 0
    (by simp) (by simp) (by have := length_preorderOf t; omega)
  simp only [List.length_nil, Nat.cast_zero] at hmain
  have e : (((inorderOf t).length : Nat) : Int) - 1 = (0 : Int) + (size t : Int) - 1 := by
    rw [length_inorderOf]; ring
  rw [e, hmain]

/-- `buildTree` reconstructs any tree with distinct values from its own
traversals. -/
theorem buildTree_of_traversals (t : Tree) (h : (inorderOf t).Nodup) :
    buildTree (preorderOf t) (inorderOf t) = some t := by
  unfold buildTree
  rw [buildRecF_run t h]

/-! ## Correctness of the linear-scan builder (approach 2) -/

theorem get?_inj_of_nodup {l : List Int} (h : l.Nodup) {i j : Nat} {v : Int}
    (hi : l.get? i = some v) (hj : l.get? j = some v) : i = j := by
  rw [List.get?_eq_some] at hi hj
  obtain ⟨hi1, e1⟩ := hi
  obtain ⟨hj1, e2⟩ := hj
  have h3 := (List.Nodup.get_inj_iff h).mp (e1.trans e2.symm)
  simpa using congrArg Fin.val h3

/-- On a duplicate-free list the scan starting inside the window containing
the unique occurrence finds exactly that occurrence. -/
theorem scanIdx_eq {l : List Int} (hnd : l.Nodup) {i : Nat} {v : Int}
    (hget : l.get? i = some v) :
    ∀ (w s : Nat), s ≤ i → i < s + w → scanIdx l v s w = some i := by
  intro w
  induction w with
  | zero => intro s h1 h2; exact absurd h2 (by omega)
  | succ w ih =>
    intro s h1 h2
    have hilen : i < l.length := (List.get?_eq_some.mp hget).1
    have hslen : s < l.length := by omega
    obtain ⟨a, hgs⟩ : ∃ a, l.get? s = some a := by
      cases hgs : l.get? s with
      | none => exact absurd (List.get?_eq_none.mp hgs) (by omega)
      | some a => exact ⟨a, rfl⟩
    rw [scanIdx]
    simp only [hgs]
    by_cases hav : a = v
    · subst hav
      have hsi : s = i := get?_inj_of_nodup hnd hgs hget
      rw [if_pos rfl, hsi]
    · rw [if_neg hav]
      have hsne : s ≠ i := by
        intro e
        rw [e, hget] at hgs
        exact hav (Option.some.inj hgs).symm
      exact ih (s + 1) (by omega) (by omega)

/-- `list.index` on a duplicate-free list over a window `[L, L + n)` that
contains the unique occurrence of `v` returns that occurrence. -/
theorem pyIndex_eq {ino : List Int} (hnd : ino.Nodup) {i L n : Nat} {v : Int}
    (hget : ino.get? i = some v) (h1 : L ≤ i) (h2 : i < L + n) :
    pyIndex ino v (L : Int) ((L : Int) + (n : Int)) = some i := by
  simp only [pyIndex]
  rw [if_neg (by omega), if_neg (by omega)]
  have e1 : ((L : Int)).toNat = L := by omega
  have e2 : ((L : Int) + (n : Int)).toNat = L + n := by omega
  rw [e1, e2]
  have e3 : L + n - L = n := by omega
  rw [e3]
  exact scanIdx_eq hnd hget n L h1 h2

/-- Invariant of `_build_without_map`, the same statement as
`buildRecF_ok` with the map lookup replaced by the bounded linear scan. -/
theorem buildRecV2_ok {ino : List Int} (hnd : ino.Nodup) :
    ∀ (t : Tree) (f : Nat) (pre preSeg suf rest : List Int) (cur : Nat),
      ino = preSeg ++ (inorderOf t ++ suf) →
      pre.drop cur = preorderOf t ++ rest →
      size t < f →
      buildRecV2 pre ino f (preSeg.length : Int)
        ((preSeg.length : Int) + (size t : Int) - 1) cur = .ok t (size t) := by
  intro t
  induction t with
  | nil =>
    intro f pre preSeg suf rest cur hino hpre hf
    obtain ⟨f', rfl⟩ : ∃ f', f = f' + 1 := ⟨f - 1, by omega⟩
    have hlt : (preSeg.length : Int) > (preSeg.length : Int) + (size Tree.nil : Int) - 1 := by
      simp [size]
    rw [buildRecV2, if_pos hlt]
    rfl
  | node v l r ihl ihr =>
    intro f pre preSeg suf rest cur hino hpre hf
    obtain ⟨f', rfl⟩ : ∃ f', f = f' + 1 := ⟨f - 1, by omega⟩
    have hsz : size (Tree.node v l r) = 1 + size l + size r := rfl
    have hnb : ¬ ((preSeg.length : Int) > (preSeg.length : Int) + (size (Tree.node v l r) : Int) - 1) := by
      rw [hsz]; push_cast; omega
    rw [preorderOf] at hpre
    have hget : pre.get? cur = some v := get?_of_drop_eq (by rw [hpre]; rfl)
    have hvidx : ino.get? (preSeg.length + size l) = some v := by
      rw [hino]
      rw [List.get?_append_right (by omega)]
      have e0 : preSeg.length + size l - preSeg.length = size l := by omega
      rw [e0, inorderOf]
      rw [List.get?_append (by rw [List.length_append, length_inorderOf]; simp)]
      rw [List.get?_append_right (by rw [length_inorderOf])]
      rw [length_inorderOf]
      simp
    have hfind : pyIndex ino v (preSeg.length : Int)
        ((preSeg.length : Int) + (size (Tree.node v l r) : Int) - 1 + 1) =
        some (preSeg.length + size l) := by
      have e : (preSeg.length : Int) + (size (Tree.node v l r) : Int) - 1 + 1 =
          (preSeg.length : Int) + ((size (Tree.node v l r) : Nat) : Int) := by ring
      rw [e]
      exact pyIndex_eq hnd hvidx (by omega) (by rw [hsz]; omega)
    have hpreL : pre.drop (cur + 1) = preorderOf l ++ (preorderOf r ++ rest) := by
      have h3 := drop_succ_of_drop_eq (l := pre) (n := cur) (a := v)
        (t := (preorderOf l ++ preorderOf r) ++ rest) (by rw [hpre]; rfl)
      rw [h3, List.append_assoc]
    have hinoL : ino = preSeg ++ (inorderOf l ++ (v :: inorderOf r ++ suf)) := by
      rw [hino, inorderOf]
      simp [List.append_assoc]
    have hL := ihl f' pre preSeg (v :: inorderOf r ++ suf) (preorderOf r ++ rest) (cur + 1)
      hinoL hpreL (by omega)
    have hpreR : pre.drop (cur + 1 + size l) = preorderOf r ++ rest := by
      have h2 : pre.drop (cur + 1 + size l) = (pre.drop (cur + 1)).drop (size l) :=
        (List.drop_drop (size l) (cur + 1) pre).symm
      rw [h2, hpreL, ← length_preorderOf l, List.drop_left]
    have hinoR : ino = (preSeg ++ (inorderOf l ++ [v])) ++ (inorderOf r ++ suf) := by
      rw [hino, inorderOf]
      simp [List.append_assoc]
    have hR := ihr f' pre (preSeg ++ (inorderOf l ++ [v])) suf rest (cur + 1 + size l)
      hinoR hpreR (by omega)
    have e1 : ((preSeg.length + size l : Nat) : Int) - 1 =
        (preSeg.length : Int) + (size l : Int) - 1 := by push_cast; ring
    have e2 : ((preSeg.length + size l : Nat) : Int) + 1 =
        ((preSeg ++ (inorderOf l ++ [v])).length : Int) := by
      simp [List.length_append, length_inorderOf]
      ring
    have e3 : (preSeg.length : Int) + (size (Tree.node v l r) : Int) - 1 =
        ((preSeg ++ (inorderOf l ++ [v])).length : Int) + (size r : Int) - 1 := by
      rw [hsz]
      simp [List.length_append, length_inorderOf]
      ring
    simp only [buildRecV2]
    rw [if_neg hnb]
    simp only [hget, hfind]
    rw [e1]
    simp only [hL]
    rw [e2, e3]
    simp only [hR]
    rw [hsz]

/-- `buildTree_v2` also reconstructs any tree with distinct values from its
own traversals. -/
theorem buildTreeV2_of_traversals (t : Tree) (h : (inorderOf t).Nodup) :
    buildTree_v2 (preorderOf t) (inorderOf t) = some t := by
  unfold buildTree_v2
  have hmain := buildRecV2_ok h t ((preorderOf t).length + 1) (preorderOf t) [] [] [] 0
    (by simp) (by simp) (by have := length_preorderOf t; omega)
  simp only [List.length_nil, Nat.cast_zero] at hmain
  have e : (((inorderOf t).length : Nat) : Int) - 1 = (0 : Int) + (size t : Int) - 1 := by
    rw [length_inorderOf]; ring
  rw [e, hmain]

/-! ## Correctness of the iterative builder (approach 3) -/

/-- Values of the processed-but-unmatched nodes of `t` once its whole
preorder has been processed by the iterative loop, top of stack first
(which is also their inorder order): if `t` has a right child the pending
chain of the left part has been popped while entering the right subtree,
otherwise the root stays pending on top of the left part's chain. -/
def pend : Tree → List Int
  | Tree.nil => []
  | Tree.node v l r => if r = Tree.nil then pend l ++ [v] else pend r

/-- Value stored at heap id `i` (dummy 0 when out of range). -/
def valAt (H : List NodeRec) (i : Nat) : Int :=
  ((H.get? i).map NodeRec.val).getD 0

/-- Heap id of the root of subtree `t` when `t`'s records occupy positions
starting at `j`; `none` for the empty subtree. -/
def optId : Tree → Nat → Option Nat
  | Tree.nil, _ => none
  | Tree.node _ _ _, j => some j

/-- The records of heap `H` starting at id `i` lay out exactly tree `t`:
root at `i`, left subtree from `i + 1`, right subtree after it. -/
def ReprSeg (H : List NodeRec) : Nat → Tree → Prop
  | _, Tree.nil => True
  | i, Tree.node v l r =>
      H.get? i = some ⟨v, optId l (i + 1), optId r (i + 1 + size l)⟩ ∧
      ReprSeg H (i + 1) l ∧ ReprSeg H (i + 1 + size l) r

theorem pend_suffix (t : Tree) : ∃ M, inorderOf t = M ++ pend t := by
  induction t with
  | nil => exact ⟨[], rfl⟩
  | node v l r ihl ihr =>
    by_cases hr : r = Tree.nil
    · obtain ⟨M, hM⟩ := ihl
      subst hr
      refine ⟨M, ?_⟩
      rw [inorderOf, pend, if_pos rfl, hM]
      simp [inorderOf]
    · obtain ⟨M, hM⟩ := ihr
      refine ⟨inorderOf l ++ v :: M, ?_⟩
      rw [inorderOf, pend, if_neg hr, hM]
      simp

theorem ReprSeg_mono {H H' : List NodeRec} :
    ∀ (t : Tree) (i : Nat), ReprSeg H i t →
      (∀ j, i ≤ j → j < i + size t → H'.get? j = H.get? j) →
      ReprSeg H' i t := by
  intro t
  induction t with
  | nil => intro i h hj; trivial
  | node v l r ihl ihr =>
    intro i h hj
    obtain ⟨hrec, hl, hr⟩ := h
    have hszt : size (Tree.node v l r) = 1 + size l + size r := rfl
    refine ⟨?_, ?_, ?_⟩
    · rw [hj i (le_refl i) (by rw [hszt]; omega), hrec]
    · exact ihl (i + 1) hl (fun j h1 h2 => hj j (by omega) (by rw [hszt]; omega))
    · exact ihr (i + 1 + size l) hr (fun j h1 h2 => hj j (by omega) (by rw [hszt]; omega))

theorem extract_of_ReprSeg {H : List NodeRec} :
    ∀ (t : Tree) (i fuel : Nat), ReprSeg H i t → t ≠ Tree.nil → size t ≤ fuel →
      extract H fuel i = some t := by
  intro t
  induction t with
  | nil => intro i fuel h hne hf; exact absurd rfl hne
  | node v l r ihl ihr =>
    intro i fuel h hne hf
    have hszt : size (Tree.node v l r) = 1 + size l + size r := rfl
    obtain ⟨fu, rfl⟩ : ∃ fu, fuel = fu + 1 := ⟨fuel - 1, by rw [hszt] at hf; omega⟩
    obtain ⟨hrec, hl, hr⟩ := h
    rw [extract]
    simp only [hrec]
    have hL : (match optId l (i + 1) with
        | none => some Tree.nil
        | some j => extract H fu j) = some l := by
      cases l with
      | nil => rfl
      | node lv ll lr =>
        simp only [optId]
        exact ihl (i + 1) fu hl (by simp) (by rw [hszt] at hf; simp [size] at *; omega)
    have hR : (match optId r (i + 1 + size l) with
        | none => some Tree.nil
        | some j => extract H fu j) = some r := by
      cases r with
      | nil => rfl
      | node rv rl rr =>
        simp only [optId]
        exact ihr (i + 1 + size l) fu hr (by simp) (by rw [hszt] at hf; simp [size] at *; omega)
    simp only [hL, hR]

theorem popLoop_stop {ino : List Int} {H : List NodeRec} {S : List Nat} {k : Nat}
    {pacc : Option Nat}
    (h : S = [] ∨ ∃ s0 S' w, S = s0 :: S' ∧ s0 < H.length ∧
      ino.get? k = some w ∧ valAt H s0 ≠ w) :
    popLoop ino H S k pacc = some (pacc, S, k) := by
  rcases h with rfl | ⟨s0, S', w, rfl, hs0, hw, hnev⟩
  · rfl
  · rw [popLoop]
    obtain ⟨nr, hnr⟩ : ∃ nr, H.get? s0 = some nr := by
      cases hx : H.get? s0 with
      | none => exact absurd (List.get?_eq_none.mp hx) (by omega)
      | some nr => exact ⟨nr, rfl⟩
    have hv : ¬ (nr.val = w) := by
      have e : valAt H s0 = nr.val := by rw [valAt, hnr]; rfl
      rw [← e]; exact hnev
    simp only [hnr, hw]
    rw [if_neg hv]

theorem popLoop_pops {ino : List Int} {H : List NodeRec} :
    ∀ (P : List Nat) (p : Nat) (S : List Nat) (k : Nat) (pacc : Option Nat)
      (rest : List Int),
      (∀ i ∈ P ++ [p], i < H.length) →
      ino.drop k = (P ++ [p]).map (valAt H) ++ rest →
      (S = [] ∨ ∃ s0 S', S = s0 :: S' ∧ s0 < H.length ∧
        ∃ w, rest.get? 0 = some w ∧ valAt H s0 ≠ w) →
      popLoop ino H ((P ++ [p]) ++ S) k pacc =
        some (some p, S, k + (P.length + 1)) := by
  intro P
  induction P with
  | nil =>
    intro p S k pacc rest hids hdrop hstop
    have hp : p < H.length := hids p (by simp)
    obtain ⟨nr, hnr⟩ : ∃ nr, H.get? p = some nr := by
      cases hx : H.get? p with
      | none => exact absurd (List.get?_eq_none.mp hx) (by omega)
      | some nr => exact ⟨nr, rfl⟩
    simp only [List.nil_append, List.map_cons, List.map_nil] at hdrop ⊢
    have hgv : ino.get? k = some (valAt H p) := get?_of_drop_eq hdrop
    have hdrop1 : ino.drop (k + 1) = rest := drop_succ_of_drop_eq hdrop
    have hv : nr.val = valAt H p := by rw [valAt, hnr]; rfl
    rw [List.singleton_append, popLoop]
    simp only [hnr, hgv]
    rw [if_pos hv]
    have hstop1 : S = [] ∨ ∃ s0 S' w, S = s0 :: S' ∧ s0 < H.length ∧
        ino.get? (k + 1) = some w ∧ valAt H s0 ≠ w := by
      rcases hstop with rfl | ⟨s0, S', rfl, hs0, w, hw, hnev⟩
      · exact Or.inl rfl
      · refine Or.inr ⟨s0, S', w, rfl, hs0, ?_, hnev⟩
        have e := List.get?_drop ino (k + 1) 0
        rw [hdrop1] at e
        rw [e] at hw
        simpa using hw
    rw [popLoop_stop hstop1]
    simp
  | cons q P ih =>
    intro p S k pacc rest hids hdrop hstop
    have hq : q < H.length := hids q (by simp)
    obtain ⟨nr, hnr⟩ : ∃ nr, H.get? q = some nr := by
      cases hx : H.get? q with
      | none => exact absurd (List.get?_eq_none.mp hx) (by omega)
      | some nr => exact ⟨nr, rfl⟩
    simp only [List.cons_append, List.map_cons] at hdrop ⊢
    have hgv : ino.get? k = some (valAt H q) := get?_of_drop_eq hdrop
    have hdrop1 : ino.drop (k + 1) = (P ++ [p]).map (valAt H) ++ rest :=
      drop_succ_of_drop_eq hdrop
    have hv : nr.val = valAt H q := by rw [valAt, hnr]; rfl
    rw [popLoop]
    simp only [hnr, hgv]
    rw [if_pos hv]
    have h2 := ih p S (k + 1) (some q) rest
      (fun i hi => hids i (by simp at hi ⊢; tauto)) hdrop1 hstop
    have e3 : k + 1 + (P.length + 1) = k + ((q :: P).length + 1) := by
      simp [List.length_cons]
      omega
    rw [h2, e3]

theorem get?_some_of_lt {H : List NodeRec} {i : Nat} (h : i < H.length) :
    ∃ nr, H.get? i = some nr := by
  cases hx : H.get? i with
  | none => exact absurd (List.get?_eq_none.mp hx) (by omega)
  | some nr => exact ⟨nr, rfl⟩

/-- One iteration of the main loop, on a stack `P ++ S` whose `P`-part
values are exactly the next inorder entries and whose `S`-part top does not
match the entry after them: the new node pops exactly `P`, attaches as
right child of the last popped node (or as left child of the `S`-top if `P`
is empty), and is pushed. -/
theorem v3Step_spec (v : Int) {ino : List Int} {H : List NodeRec} {P S : List Nat}
    {k : Nat} {w0 : Int} {tail : List Int}
    (hdrop : ino.drop k = P.map (valAt H) ++ (w0 :: tail))
    (hPids : ∀ i ∈ P, i < H.length)
    (hSids : ∀ i ∈ S, i < H.length)
    (hne : P = [] → S ≠ [])
    (hstop : ∀ s0, S.head? = some s0 → valAt H s0 ≠ w0) :
    ∃ heap1,
      v3Step ino ⟨H, P ++ S, k⟩ v = some ⟨heap1, H.length :: S, k + P.length⟩ ∧
      heap1.length = H.length + 1 ∧
      heap1.get? H.length = some ⟨v, none, none⟩ ∧
      (∀ j, j < H.length → valAt heap1 j = valAt H j) ∧
      ∃ tgt old,
        ((P = [] ∧ S.head? = some tgt) ∨ (P ≠ [] ∧ P.getLast? = some tgt)) ∧
        H.get? tgt = some old ∧
        heap1.get? tgt = some (if P = [] then { old with left := some H.length }
          else { old with right := some H.length }) ∧
        (∀ j, j < H.length → j ≠ tgt → heap1.get? j = H.get? j) := by
  have hlen0 : (H ++ [(⟨v, none, none⟩ : NodeRec)]).length = H.length + 1 := by simp
  have hval0 : ∀ j, j < H.length →
      valAt (H ++ [(⟨v, none, none⟩ : NodeRec)]) j = valAt H j := by
    intro j hj
    rw [valAt, valAt, List.get?_append hj]
  have hmap0 : P.map (valAt (H ++ [(⟨v, none, none⟩ : NodeRec)])) = P.map (valAt H) :=
    List.map_eq_map_iff.mpr (fun i hi => hval0 i (hPids i hi))
  by_cases hPe : P = []
  · subst hPe
    obtain ⟨s0, S', rfl⟩ : ∃ s0 S', S = s0 :: S' := by
      cases S with
      | nil => exact absurd rfl (hne rfl)
      | cons a as => exact ⟨a, as, rfl⟩
    simp only [List.map_nil, List.nil_append] at hdrop
    have hw : ino.get? k = some w0 := get?_of_drop_eq hdrop
    have hs0H : s0 < H.length := hSids s0 (by simp)
    obtain ⟨tr, htr⟩ := get?_some_of_lt hs0H
    have htr0 : (H ++ [(⟨v, none, none⟩ : NodeRec)]).get? s0 = some tr := by
      rw [List.get?_append hs0H]; exact htr
    have hpl : popLoop ino (H ++ [(⟨v, none, none⟩ : NodeRec)]) (s0 :: S') k none =
        some (none, s0 :: S', k) := by
      apply popLoop_stop
      refine Or.inr ⟨s0, S', w0, rfl, by rw [hlen0]; omega, hw, ?_⟩
      rw [hval0 s0 hs0H]
      exact hstop s0 rfl
    refine ⟨(H ++ [(⟨v, none, none⟩ : NodeRec)]).set s0 { tr with left := some H.length },
      ?_, by simp, ?_, ?_, s0, tr, Or.inl ⟨rfl, rfl⟩, htr, ?_, ?_⟩
    · simp only [v3Step, List.nil_append]
      rw [hpl]
      simp only [htr0]
      simp
    · rw [List.get?_set_ne _ _ (by omega), List.get?_concat_length]
    · intro j hj
      by_cases hjs : j = s0
      · subst hjs
        rw [valAt, valAt, List.get?_set_eq_of_lt _ (by omega), htr]
        rfl
      · rw [valAt, valAt, List.get?_set_ne _ _ (by omega), List.get?_append hj]
    · rw [if_pos rfl, List.get?_set_eq_of_lt _ (by omega)]
    · intro j hj hjs
      rw [List.get?_set_ne _ _ (by omega), List.get?_append hj]
  · obtain ⟨Pi, p, rfl⟩ : ∃ Pi p, P = Pi ++ [p] := by
      obtain ⟨Pi, p, e⟩ := (List.eq_nil_or_concat P).resolve_left hPe
      exact ⟨Pi, p, by rw [e, List.concat_eq_append]⟩
    have hpH : p < H.length := hPids p (by simp)
    obtain ⟨pr, hpr⟩ := get?_some_of_lt hpH
    have hpr0 : (H ++ [(⟨v, none, none⟩ : NodeRec)]).get? p = some pr := by
      rw [List.get?_append hpH]; exact hpr
    have hdrop0 : ino.drop k =
        (Pi ++ [p]).map (valAt (H ++ [(⟨v, none, none⟩ : NodeRec)])) ++ (w0 :: tail) := by
      rw [hmap0]; exact hdrop
    have hpl : popLoop ino (H ++ [(⟨v, none, none⟩ : NodeRec)]) ((Pi ++ [p]) ++ S) k none =
        some (some p, S, k + (Pi.length + 1)) := by
      apply popLoop_pops Pi p S k none (w0 :: tail) ?_ hdrop0 ?_
      · intro i hi
        have := hPids i hi
        omega
      · cases S with
        | nil => exact Or.inl rfl
        | cons s0 S' =>
          refine Or.inr ⟨s0, S', rfl, ?_, w0, rfl, ?_⟩
          · have := hSids s0 (by simp)
            omega
          · rw [hval0 s0 (hSids s0 (by simp))]
            exact hstop s0 rfl
    refine ⟨(H ++ [(⟨v, none, none⟩ : NodeRec)]).set p { pr with right := some H.length },
      ?_, by simp, ?_, ?_, p, pr, Or.inr ⟨hPe, List.getLast?_concat Pi⟩, hpr, ?_, ?_⟩
    · simp only [v3Step]
      rw [hpl]
      simp only [hpr0]
      simp
    · rw [List.get?_set_ne _ _ (by omega), List.get?_concat_length]
    · intro j hj
      by_cases hjp : j = p
      · subst hjp
        rw [valAt, valAt, List.get?_set_eq_of_lt _ (by omega), hpr]
        rfl
      · rw [valAt, valAt, List.get?_set_ne _ _ (by omega), List.get?_append hj]
    · rw [if_neg hPe, List.get?_set_eq_of_lt _ (by omega)]
    · intro j hj hjp
      rw [List.get?_set_ne _ _ (by omega), List.get?_append hj]

/-- Simulation invariant of the iterative loop, by structural induction on
the subtree whose preorder is about to be processed. Starting from a stack
`P ++ S` whose `P`-part values are the next inorder entries followed by
`t`'s inorder segment, processing `preorderOf t` succeeds and leaves: the
heap extended by exactly `t`'s records laid out from id `H.length`
(`ReprSeg`), the stack `Q ++ S` with `Q` the still-unmatched nodes of `t`
(values `pend t`), the inorder cursor past everything matched, and of the
old records only the attach target (bottom of `P`, or top of `S` when `P`
is empty) changed — by gaining `t`'s root as a child. -/
theorem v3_run (ino : List Int) :
    ∀ (t : Tree) (H : List NodeRec) (P S : List Nat) (k : Nat) (rest : List Int),
      ino.drop k = P.map (valAt H) ++ (inorderOf t ++ rest) →
      (P.map (valAt H) ++ inorderOf t).Nodup →
      (∀ i ∈ P, i < H.length) →
      (∀ i ∈ S, i < H.length) →
      (t = Tree.nil → P = []) →
      (P = [] → S ≠ []) →
      (∀ s0, S.head? = some s0 → valAt H s0 ∉ inorderOf t) →
      ∃ st' : V3State,
        List.foldlM (fun st v => v3Step ino st v) (⟨H, P ++ S, k⟩ : V3State)
            (preorderOf t) = some st' ∧
        st'.heap.length = H.length + size t ∧
        (∃ Q, st'.stack = Q ++ S ∧ Q.map (valAt st'.heap) = pend t ∧
          ∀ i ∈ Q, H.length ≤ i ∧ i < st'.heap.length) ∧
        ino.drop st'.ioIdx = pend t ++ rest ∧
        st'.ioIdx + (pend t).length = k + P.length + (inorderOf t).length ∧
        ReprSeg st'.heap H.length t ∧
        ((t = Tree.nil ∧ st'.heap = H) ∨
          (t ≠ Tree.nil ∧ ∃ tgt old,
            ((P = [] ∧ S.head? = some tgt) ∨ (P ≠ [] ∧ P.getLast? = some tgt)) ∧
            H.get? tgt = some old ∧
            st'.heap.get? tgt = some (if P = [] then { old with left := some H.length }
              else { old with right := some H.length }) ∧
            ∀ j, j < H.length → j ≠ tgt → st'.heap.get? j = H.get? j)) ∧
        (∀ j, j < H.length → valAt st'.heap j = valAt H j) := by
  intro t
  induction t with
  | nil =>
    intro H P S k rest hdrop hnd hPids hSids hPnil hne hstop
    have hP : P = [] := hPnil rfl
    subst hP
    refine ⟨⟨H, [] ++ S, k⟩, rfl, by simp [size], ⟨[], rfl, rfl, by simp⟩,
      ?_, by simp [pend, inorderOf], trivial, Or.inl ⟨rfl, rfl⟩, fun j hj => rfl⟩
    simpa [pend, inorderOf] using hdrop
  | node v l r ihl ihr =>
    intro H P S k rest hdrop hnd hPids hSids hPnil hne hstop
    have hszt : size (Tree.node v l r) = 1 + size l + size r := rfl
    have hIt : inorderOf (Tree.node v l r) = inorderOf l ++ v :: inorderOf r := rfl
    obtain ⟨w0, tl0, hIt0⟩ : ∃ w0 tl0, inorderOf (Tree.node v l r) = w0 :: tl0 := by
      cases hc : inorderOf (Tree.node v l r) with
      | nil =>
        have hlen := length_inorderOf (Tree.node v l r)
        rw [hc, hszt] at hlen
        simp at hlen
        omega
      | cons w0 tl0 => exact ⟨w0, tl0, rfl⟩
    have hw0mem : w0 ∈ inorderOf (Tree.node v l r) := by rw [hIt0]; simp
    have hdrop0 : ino.drop k = P.map (valAt H) ++ (w0 :: (tl0 ++ rest)) := by
      rw [hdrop, hIt0]
      simp
    have hstop0 : ∀ s0, S.head? = some s0 → valAt H s0 ≠ w0 := by
      intro s0 hs0 he
      exact hstop s0 hs0 (he ▸ hw0mem)
    obtain ⟨heap1, hstepEq, hlen1, hget1n0, hval1, tgt, old, htgt, holdrec, htgtrec, hother⟩ :=
      v3Step_spec v hdrop0 hPids hSids hne hstop0
    have htgtlt : tgt < H.length := by
      rcases htgt with ⟨hPe, hhead⟩ | ⟨hPne, hlast⟩
      · exact hSids tgt (List.mem_of_mem_head? hhead)
      · exact hPids tgt (List.mem_of_mem_getLast? hlast)
    -- nodup of the inorder segment alone
    have hndt : (inorderOf (Tree.node v l r)).Nodup :=
      List.Nodup.sublist (List.sublist_append_right (P.map (valAt H)) _) hnd
    have hvnotl : v ∉ inorderOf l := by
      rw [hIt] at hndt
      rw [List.nodup_append] at hndt
      exact fun hm => hndt.2.2 hm (List.mem_cons_self v (inorderOf r))
    -- process the left subtree
    have hdropl : ino.drop (k + P.length) =
        ([] : List Nat).map (valAt heap1) ++ (inorderOf l ++ (v :: inorderOf r ++ rest)) := by
      have e1 : (ino.drop k).drop P.length = ino.drop (k + P.length) :=
        List.drop_drop P.length k ino
      have hPlen : (P.map (valAt H)).length = P.length := List.length_map _ _
      rw [← e1, hdrop, ← hPlen, List.drop_left, hIt]
      simp
    have hndl : (([] : List Nat).map (valAt heap1) ++ inorderOf l).Nodup := by
      simp only [List.map_nil, List.nil_append]
      have hsub : (inorderOf l).Sublist (inorderOf (Tree.node v l r)) := by
        rw [hIt]
        exact List.sublist_append_left _ _
      exact List.Nodup.sublist hsub hndt
    have hSidsl : ∀ i ∈ H.length :: S, i < heap1.length := by
      intro i hi
      rcases List.mem_cons.mp hi with rfl | hi'
      · omega
      · have := hSids i hi'
        omega
    have hstopl : ∀ s0, (H.length :: S).head? = some s0 →
        valAt heap1 s0 ∉ inorderOf l := by
      intro s0 hs0
      have : s0 = H.length := by simp at hs0; omega
      subst this
      have hv : valAt heap1 H.length = v := by rw [valAt, hget1n0]; rfl
      rw [hv]
      exact hvnotl
    obtain ⟨st2, hfold2, hlen2, ⟨Ql, hstack2, hQlvals, hQlids⟩, hdrop2, hioidx2,
        hrep2, hchange2, hval2⟩ :=
      ihl heap1 [] (H.length :: S) (k + P.length) (v :: inorderOf r ++ rest)
        hdropl hndl (by simp) hSidsl (fun _ => rfl) (fun _ => by simp) hstopl
    simp only [List.nil_append] at hfold2
    -- the root's record after the left phase
    have hrecn0 : st2.heap.get? H.length = some ⟨v, optId l (H.length + 1), none⟩ := by
      rcases hchange2 with ⟨hlnil, hheap2⟩ | ⟨hlne, tgt2, old2, htgt2, hold2, htgt2rec, hother2⟩
      · rw [hheap2, hget1n0]
        subst hlnil
        rfl
      · have htgt2n0 : tgt2 = H.length := by
          rcases htgt2 with ⟨h1, h2⟩ | ⟨h1, h2⟩
          · simp at h2
            omega
          · exact absurd rfl h1
        subst htgt2n0
        rw [hget1n0] at hold2
        injection hold2 with hold2e
        subst hold2e
        rw [htgt2rec, if_pos rfl, hlen1]
        cases l with
        | nil => exact absurd rfl hlne
        | node lv ll lr => rfl
    have hvaln0 : valAt st2.heap H.length = v := by rw [valAt, hrecn0]; rfl
    have hpres2 : ∀ j, j < heap1.length → j ≠ H.length →
        st2.heap.get? j = heap1.get? j := by
      rcases hchange2 with ⟨hlnil, hheap2⟩ | ⟨hlne, tgt2, old2, htgt2, hold2, htgt2rec, hother2⟩
      · intro j h1 h2
        rw [hheap2]
      · have htgt2n0 : tgt2 = H.length := by
          rcases htgt2 with ⟨h1, h2⟩ | ⟨h1, h2⟩
          · simp at h2
            omega
          · exact absurd rfl h1
        subst htgt2n0
        exact hother2
    have hQllen : Ql.length = (pend l).length := by
      rw [← hQlvals, List.length_map]
    have hIlen : (inorderOf (Tree.node v l r)).length =
        (inorderOf l).length + 1 + (inorderOf r).length := by
      rw [hIt]
      simp
      omega
    by_cases hre : r = Tree.nil
    · -- no right subtree: the state after the left phase is final
      subst hre
      refine ⟨st2, ?_, ?_, ⟨Ql ++ [H.length], ?_, ?_, ?_⟩, ?_, ?_, ?_, ?_, ?_⟩
      · show (v3Step ino ⟨H, P ++ S, k⟩ v) >>=
            (fun s => List.foldlM (fun st v => v3Step ino st v) s
              (preorderOf l ++ preorderOf Tree.nil)) = some st2
        rw [hstepEq]
        show List.foldlM (fun st v => v3Step ino st v)
            (⟨heap1, H.length :: S, k + P.length⟩ : V3State)
            (preorderOf l ++ preorderOf Tree.nil) = some st2
        rw [List.foldlM_append, hfold2]
        rfl
      · rw [hlen2, hlen1, hszt]
        simp [size]
        omega
      · rw [hstack2, List.append_assoc]
        rfl
      · rw [List.map_append, hQlvals]
        show pend l ++ [valAt st2.heap H.length] = pend (Tree.node v l Tree.nil)
        rw [hvaln0, pend, if_pos rfl]
      · intro i hi
        rcases List.mem_append.mp hi with hi' | hi'
        · have := hQlids i hi'
          omega
        · have : i = H.length := by simpa using hi'
          subst this
          constructor
          · omega
          · rw [hlen2]
            omega
      · rw [hdrop2]
        show pend l ++ (v :: ([] ++ rest)) = pend (Tree.node v l Tree.nil) ++ rest
        rw [pend, if_pos rfl]
        simp
      · have hplen : (pend (Tree.node v l Tree.nil)).length = (pend l).length + 1 := by
          rw [pend, if_pos rfl]
          simp
        rw [hplen, hIlen]
        simp only [inorderOf, List.length_nil] at hioidx2 ⊢
        simp at hioidx2
        simp [inorderOf]
        omega
      · refine ⟨?_, ?_, trivial⟩
        · rw [hrecn0]
          rfl
        · rw [← hlen1]
          exact hrep2
      · refine Or.inr ⟨by simp, tgt, old, htgt, holdrec, ?_, ?_⟩
        · rw [hpres2 tgt (by omega) (by omega)]
          exact htgtrec
        · intro j hj hjt
          rw [hpres2 j (by omega) (by omega)]
          exact hother j hj hjt
      · intro j hj
        rw [hval2 j (by omega), hval1 j hj]
    · -- process the right subtree
      have hdropr : ino.drop st2.ioIdx =
          (Ql ++ [H.length]).map (valAt st2.heap) ++ (inorderOf r ++ rest) := by
        rw [List.map_append, hQlvals]
        simp only [List.map_cons, List.map_nil]
        show ino.drop st2.ioIdx = pend l ++ [valAt st2.heap H.length] ++ (inorderOf r ++ rest)
        rw [hvaln0, hdrop2]
        simp
      have hndr : ((Ql ++ [H.length]).map (valAt st2.heap) ++ inorderOf r).Nodup := by
        rw [List.map_append, hQlvals]
        simp only [List.map_cons, List.map_nil]
        show (pend l ++ [valAt st2.heap H.length] ++ inorderOf r).Nodup
        rw [hvaln0, List.append_assoc]
        obtain ⟨Ml, hMl⟩ := pend_suffix l
        have hsub1 : (pend l).Sublist (inorderOf l) := by
          rw [hMl]
          exact List.sublist_append_right _ _
        have hsub2 : (pend l ++ ([v] ++ inorderOf r)).Sublist
            (inorderOf l ++ ([v] ++ inorderOf r)) :=
          List.Sublist.append_right hsub1 _
        have hsub3 : (inorderOf l ++ ([v] ++ inorderOf r)).Sublist
            (P.map (valAt H) ++ inorderOf (Tree.node v l r)) := by
          rw [hIt]
          simp only [List.singleton_append]
          exact List.sublist_append_right _ _
        exact List.Nodup.sublist (hsub2.trans hsub3) hnd
      have hPidsr : ∀ i ∈ Ql ++ [H.length], i < st2.heap.length := by
        intro i hi
        rcases List.mem_append.mp hi with hi' | hi'
        · exact (hQlids i hi').2
        · have : i = H.length := by simpa using hi'
          subst this
          rw [hlen2]
          omega
      have hSidsr : ∀ i ∈ S, i < st2.heap.length := by
        intro i hi
        have := hSids i hi
        rw [hlen2]
        omega
      have hstopr : ∀ s0, S.head? = some s0 → valAt st2.heap s0 ∉ inorderOf r := by
        intro s0 hs0 hmem
        have hs0lt : s0 < H.length := hSids s0 (List.mem_of_mem_head? hs0)
        rw [hval2 s0 (by omega), hval1 s0 hs0lt] at hmem
        exact hstop s0 hs0 (by rw [hIt]; simp; right; right; exact hmem)
      obtain ⟨st3, hfold3, hlen3, ⟨Qr, hstack3, hQrvals, hQrids⟩, hdrop3, hioidx3,
          hrep3, hchange3, hval3⟩ :=
        ihr st2.heap (Ql ++ [H.length]) S st2.ioIdx rest
          hdropr hndr hPidsr hSidsr (fun hc => absurd hc hre)
          (fun hc => absurd hc (by simp)) hstopr
      have hst2eq : (⟨st2.heap, (Ql ++ [H.length]) ++ S, st2.ioIdx⟩ : V3State) = st2 := by
        cases st2 with
        | mk h2 s2 i2 =>
          simp only at hstack2 ⊢
          rw [hstack2, List.append_assoc]
          rfl
      rw [hst2eq] at hfold3
      -- unpack the right phase's change to the root record
      have hrecn0fin : st3.heap.get? H.length =
          some ⟨v, optId l (H.length + 1), optId r (H.length + 1 + size l)⟩ := by
        rcases hchange3 with ⟨hrnil, _⟩ | ⟨hrne, tgt3, old3, htgt3, hold3, htgt3rec, hother3⟩
        · exact absurd hrnil hre
        · have htgt3n0 : tgt3 = H.length := by
            rcases htgt3 with ⟨h1, h2⟩ | ⟨h1, h2⟩
            · exact absurd h1 (by simp)
            · rw [List.getLast?_concat] at h2
              injection h2 with h2e
              omega
          subst htgt3n0
          rw [hrecn0] at hold3
          injection hold3 with hold3e
          subst hold3e
          rw [htgt3rec, if_neg (by simp), hlen2, hlen1]
          cases r with
          | nil => exact absurd rfl hre
          | node rv rl rr =>
            show some _ = some _
            congr 1
      have hother3' : ∀ j, j < st2.heap.length → j ≠ H.length →
          st3.heap.get? j = st2.heap.get? j := by
        rcases hchange3 with ⟨hrnil, _⟩ | ⟨hrne, tgt3, old3, htgt3, hold3, htgt3rec, hother3⟩
        · exact absurd hrnil hre
        · have htgt3n0 : tgt3 = H.length := by
            rcases htgt3 with ⟨h1, h2⟩ | ⟨h1, h2⟩
            · exact absurd h1 (by simp)
            · rw [List.getLast?_concat] at h2
              injection h2 with h2e
              omega
          subst htgt3n0
          exact hother3
      refine ⟨st3, ?_, ?_, ⟨Qr, hstack3, ?_, ?_⟩, ?_, ?_, ?_, ?_, ?_⟩
      · show (v3Step ino ⟨H, P ++ S, k⟩ v) >>=
            (fun s => List.foldlM (fun st v => v3Step ino st v) s
              (preorderOf l ++ preorderOf r)) = some st3
        rw [hstepEq]
        show List.foldlM (fun st v => v3Step ino st v)
            (⟨heap1, H.length :: S, k + P.length⟩ : V3State)
            (preorderOf l ++ preorderOf r) = some st3
        rw [List.foldlM_append, hfold2]
        show List.foldlM (fun st v => v3Step ino st v) st2 (preorderOf r) = some st3
        exact hfold3
      · rw [hlen3, hlen2, hlen1, hszt]
        omega
      · rw [hQrvals]
        show pend r = pend (Tree.node v l r)
        rw [pend, if_neg hre]
      · intro i hi
        have h1 := hQrids i hi
        constructor
        · have : H.length ≤ st2.heap.length := by rw [hlen2]; omega
          omega
        · exact h1.2
      · rw [hdrop3]
        show pend r ++ rest = pend (Tree.node v l r) ++ rest
        rw [pend, if_neg hre]
      · have hplen : (pend (Tree.node v l r)).length = (pend r).length := by
          rw [pend, if_neg hre]
        rw [hplen, hIlen]
        have hlenQ : (Ql ++ [H.length]).length = (pend l).length + 1 := by
          rw [List.length_append, hQllen]
          rfl
        rw [hlenQ] at hioidx3
        simp only [List.length_nil] at hioidx2
        omega
      · refine ⟨hrecn0fin, ?_, ?_⟩
        · have hmono : ∀ j, H.length + 1 ≤ j → j < H.length + 1 + size l →
              st3.heap.get? j = st2.heap.get? j := by
            intro j h1 h2
            refine hother3' j ?_ (by omega)
            rw [hlen2, hlen1]
            omega
          refine ReprSeg_mono l (H.length + 1) ?_ hmono
          rw [← hlen1]
          exact hrep2
        · have : st2.heap.length = H.length + 1 + size l := by
            rw [hlen2, hlen1]
          rw [← this]
          exact hrep3
      · refine Or.inr ⟨by simp, tgt, old, htgt, holdrec, ?_, ?_⟩
        · rw [hother3' tgt (by rw [hlen2]; omega) (by omega),
            hpres2 tgt (by omega) (by omega)]
          exact htgtrec
        · intro j hj hjt
          rw [hother3' j (by rw [hlen2]; omega) (by omega),
            hpres2 j (by omega) (by omega)]
          exact hother j hj hjt
      · intro j hj
        rw [hval3 j (by rw [hlen2]; omega), hval2 j (by omega), hval1 j hj]

/-- Unfolding of `buildTree_v3` on a non-empty preorder list. -/
theorem buildTree_v3_cons (v0 : Int) (rest ino : List Int) :
    buildTree_v3 (v0 :: rest) ino =
      match rest.foldlM (fun st v => v3Step ino st v)
          (⟨[⟨v0, none, none⟩], [0], 0⟩ : V3State) with
      | none => none
      | some st => extract st.heap st.heap.length 0 := rfl

/-- `buildTree_v3` also reconstructs any tree with distinct values from its
own traversals. -/
theorem buildTreeV3_of_traversals (t : Tree) (h : (inorderOf t).Nodup) :
    buildTree_v3 (preorderOf t) (inorderOf t) = some t := by
  cases t with
  | nil => rfl
  | node v l r =>
    have hIt : inorderOf (Tree.node v l r) = inorderOf l ++ v :: inorderOf r := rfl
    have hndt := h
    rw [hIt, List.nodup_append] at hndt
    have hvnotl : v ∉ inorderOf l := fun hm => hndt.2.2 hm (List.mem_cons_self _ _)
    obtain ⟨st2, hfold2, hlen2, ⟨Ql, hstack2, hQlvals, hQlids⟩, hdrop2, hioidx2,
        hrep2, hchange2, hval2⟩ :=
      v3_run (inorderOf (Tree.node v l r)) l [(⟨v, none, none⟩ : NodeRec)] [] [0] 0
        (v :: inorderOf r)
        (by rw [hIt]; simp)
        (by simp only [List.map_nil, List.nil_append]; exact hndt.1)
        (by simp) (by simp) (fun _ => rfl) (fun _ => by simp)
        (by
          intro s0 hs0
          have hs00 : s0 = 0 := by simp at hs0; omega
          subst hs00
          show valAt [(⟨v, none, none⟩ : NodeRec)] 0 ∉ inorderOf l
          exact hvnotl)
    have hH0 : ([(⟨v, none, none⟩ : NodeRec)] : List NodeRec).length = 1 := rfl
    simp only [List.nil_append] at hfold2
    simp only [hH0] at hlen2 hQlids hioidx2 hval2
    have hrecn0 : st2.heap.get? 0 = some ⟨v, optId l 1, none⟩ := by
      rcases hchange2 with ⟨hlnil, hheap2⟩ | ⟨hlne, tgt2, old2, htgt2, hold2, htgt2rec, hother2⟩
      · rw [hheap2]
        subst hlnil
        rfl
      · have htgt20 : tgt2 = 0 := by
          rcases htgt2 with ⟨h1, h2⟩ | ⟨h1, h2⟩
          · simp at h2
            omega
          · exact absurd rfl h1
        subst htgt20
        have hold2e : old2 = ⟨v, none, none⟩ := by
          have he : ([(⟨v, none, none⟩ : NodeRec)] : List NodeRec).get? 0 =
              some ⟨v, none, none⟩ := rfl
          rw [he] at hold2
          injection hold2 with h2e
          exact h2e.symm
        subst hold2e
        rw [htgt2rec, if_pos rfl]
        cases l with
        | nil => exact absurd rfl hlne
        | node lv ll lr => rfl
    have hvaln0 : valAt st2.heap 0 = v := by rw [valAt, hrecn0]; rfl
    have hQllen : Ql.length = (pend l).length := by rw [← hQlvals, List.length_map]
    by_cases hre : r = Tree.nil
    · subst hre
      have hfoldAll : List.foldlM
          (fun st w => v3Step (inorderOf (Tree.node v l Tree.nil)) st w)
          (⟨[(⟨v, none, none⟩ : NodeRec)], [0], 0⟩ : V3State)
          (preorderOf l ++ preorderOf Tree.nil) = some st2 := by
        rw [List.foldlM_append, hfold2]
        rfl
      have hrepT : ReprSeg st2.heap 0 (Tree.node v l Tree.nil) := by
        refine ⟨?_, hrep2, trivial⟩
        rw [hrecn0]
        rfl
      have hszT : size (Tree.node v l Tree.nil) = 1 + size l := by simp [size]
      show buildTree_v3 (v :: (preorderOf l ++ preorderOf Tree.nil))
          (inorderOf (Tree.node v l Tree.nil)) = some (Tree.node v l Tree.nil)
      rw [buildTree_v3_cons, hfoldAll]
      show extract st2.heap st2.heap.length 0 = some (Tree.node v l Tree.nil)
      exact extract_of_ReprSeg (Tree.node v l Tree.nil) 0 st2.heap.length hrepT
        (by simp) (by rw [hlen2, hszT])
    · have hdropr : (inorderOf (Tree.node v l r)).drop st2.ioIdx =
          (Ql ++ [0]).map (valAt st2.heap) ++ (inorderOf r ++ []) := by
        rw [List.map_append, hQlvals]
        simp only [List.map_cons, List.map_nil]
        show (inorderOf (Tree.node v l r)).drop st2.ioIdx =
          pend l ++ [valAt st2.heap 0] ++ (inorderOf r ++ [])
        rw [hvaln0, hdrop2]
        simp
      have hndr : ((Ql ++ [0]).map (valAt st2.heap) ++ inorderOf r).Nodup := by
        rw [List.map_append, hQlvals]
        simp only [List.map_cons, List.map_nil]
        show (pend l ++ [valAt st2.heap 0] ++ inorderOf r).Nodup
        rw [hvaln0, List.append_assoc]
        obtain ⟨Ml, hMl⟩ := pend_suffix l
        have hsub1 : (pend l).Sublist (inorderOf l) := by
          rw [hMl]
          exact List.sublist_append_right _ _
        have hsub2 : (pend l ++ ([v] ++ inorderOf r)).Sublist
            (inorderOf l ++ ([v] ++ inorderOf r)) :=
          List.Sublist.append_right hsub1 _
        refine List.Nodup.sublist hsub2 ?_
        rw [← hIt] at *
        simpa [hIt] using h
      have hPidsr : ∀ i ∈ Ql ++ [0], i < st2.heap.length := by
        intro i hi
        rcases List.mem_append.mp hi with hi1 | hi1
        · exact (hQlids i hi1).2
        · have : i = 0 := by simpa using hi1
          subst this
          rw [hlen2]
          omega
      obtain ⟨st3, hfold3, hlen3, ⟨Qr, hstack3, hQrvals, hQrids⟩, hdrop3, hioidx3,
          hrep3, hchange3, hval3⟩ :=
        v3_run (inorderOf (Tree.node v l r)) r st2.heap (Ql ++ [0]) [] st2.ioIdx []
          hdropr hndr hPidsr (by simp) (fun hc => absurd hc hre)
          (fun hc => absurd hc (by simp)) (fun s0 hs0 => by simp at hs0)
      have hst2eq : (⟨st2.heap, (Ql ++ [0]) ++ [], st2.ioIdx⟩ : V3State) = st2 := by
        cases st2 with
        | mk h2 s2 i2 =>
          simp only at hstack2 ⊢
          rw [hstack2]
          simp
      rw [hst2eq] at hfold3
      have hrecn0fin : st3.heap.get? 0 =
          some ⟨v, optId l 1, optId r (1 + size l)⟩ := by
        rcases hchange3 with ⟨hrnil, _⟩ | ⟨hrne, tgt3, old3, htgt3, hold3, htgt3rec, hother3⟩
        · exact absurd hrnil hre
        · have htgt30 : tgt3 = 0 := by
            rcases htgt3 with ⟨h1, h2⟩ | ⟨h1, h2⟩
            · exact absurd h1 (by simp)
            · rw [List.getLast?_concat] at h2
              injection h2 with h2e
              omega
          subst htgt30
          rw [hrecn0] at hold3
          injection hold3 with hold3e
          subst hold3e
          rw [htgt3rec, if_neg (by simp), hlen2]
          cases r with
          | nil => exact absurd rfl hre
          | node rv rl rr => rfl
      have hother3f : ∀ j, j < st2.heap.length → j ≠ 0 →
          st3.heap.get? j = st2.heap.get? j := by
        rcases hchange3 with ⟨hrnil, _⟩ | ⟨hrne, tgt3, old3, htgt3, hold3, htgt3rec, hother3⟩
        · exact absurd hrnil hre
        · have htgt30 : tgt3 = 0 := by
            rcases htgt3 with ⟨h1, h2⟩ | ⟨h1, h2⟩
            · exact absurd h1 (by simp)
            · rw [List.getLast?_concat] at h2
              injection h2 with h2e
              omega
          subst htgt30
          exact hother3
      have hrepT : ReprSeg st3.heap 0 (Tree.node v l r) := by
        refine ⟨hrecn0fin, ?_, ?_⟩
        · refine ReprSeg_mono l 1 hrep2 ?_
          intro j h1 h2
          refine hother3f j ?_ (by omega)
          rw [hlen2]
          omega
        · have he : st2.heap.length = 1 + size l := hlen2
          rw [← he]
          exact hrep3
      have hfoldAll : List.foldlM
          (fun st w => v3Step (inorderOf (Tree.node v l r)) st w)
          (⟨[(⟨v, none, none⟩ : NodeRec)], [0], 0⟩ : V3State)
          (preorderOf l ++ preorderOf r) = some st3 := by
        rw [List.foldlM_append, hfold2]
        exact hfold3
      show buildTree_v3 (v :: (preorderOf l ++ preorderOf r))
          (inorderOf (Tree.node v l r)) = some (Tree.node v l r)
      rw [buildTree_v3_cons, hfoldAll]
      show extract st3.heap st3.heap.length 0 = some (Tree.node v l r)
      refine extract_of_ReprSeg (Tree.node v l r) 0 st3.heap.length hrepT
        (by simp) ?_
      have hszt : size (Tree.node v l r) = 1 + size l + size r := rfl
      rw [hlen3, hlen2, hszt]

/-! ## Properties of the BST validator -/

theorem okLow_trans {lo : Option Int} {v k : Int} (h : v < k) (hv : okLow lo v = true) :
    okLow lo k = true := by
  cases lo with
  | none => rfl
  | some a => simp only [okLow, decide_eq_true_eq] at hv ⊢; omega

theorem okHigh_trans {hi : Option Int} {v k : Int} (h : k < v) (hv : okHigh v hi = true) :
    okHigh k hi = true := by
  cases hi with
  | none => rfl
  | some a => simp only [okHigh, decide_eq_true_eq] at hv ⊢; omega

/-- Characterization of `helper`: it accepts exactly the trees that satisfy
the BST invariant and whose keys all lie strictly inside `(lo, hi)`. -/
theorem helper_iff (t : Tree) : ∀ lo hi, helper t lo hi = true ↔
    (IsBST t ∧ ∀ k ∈ keys t, okLow lo k = true ∧ okHigh k hi = true) := by
  induction t with
  | nil =>
    intro lo hi
    simp [helper, IsBST, keys]
  | node v l r ihl ihr =>
    intro lo hi
    simp only [helper, keys, IsBST]
    constructor
    · intro h
      by_cases hc : (okLow lo v && okHigh v hi) = true
      · rw [if_pos hc] at h
        rw [Bool.and_eq_true] at h hc
        obtain ⟨hl, hr⟩ := h
        obtain ⟨hcl, hch⟩ := hc
        rw [ihl] at hl
        rw [ihr] at hr
        obtain ⟨hbl, hkl⟩ := hl
        obtain ⟨hbr, hkr⟩ := hr
        refine ⟨⟨?_, ?_, hbl, hbr⟩, ?_⟩
        · intro k hk
          have := (hkl k hk).2
          simpa [okHigh, decide_eq_true_eq] using this
        · intro k hk
          have := (hkr k hk).1
          simpa [okLow, decide_eq_true_eq] using this
        · intro k hk
          rcases List.mem_cons.mp hk with rfl | hk'
          · exact ⟨hcl, hch⟩
          · rcases List.mem_append.mp hk' with hkl' | hkr'
            · have hlt : k < v := by
                have := (hkl k hkl').2
                simpa [okHigh, decide_eq_true_eq] using this
              exact ⟨(hkl k hkl').1, okHigh_trans hlt hch⟩
            · have hgt : v < k := by
                have := (hkr k hkr').1
                simpa [okLow, decide_eq_true_eq] using this
              exact ⟨okLow_trans hgt hcl, (hkr k hkr').2⟩
      · rw [if_neg hc] at h
        exact absurd h (by simp)
    · rintro ⟨⟨hlv, hrv, hbl, hbr⟩, hks⟩
      have hv := hks v (List.mem_cons_self v _)
      have hc : (okLow lo v && okHigh v hi) = true := by
        rw [Bool.and_eq_true]; exact hv
      rw [if_pos hc, Bool.and_eq_true]
      constructor
      · rw [ihl]
        refine ⟨hbl, fun k hk => ⟨(hks k (List.mem_cons_of_mem _ (List.mem_append_left _ hk))).1, ?_⟩⟩
        simpa [okHigh, decide_eq_true_eq] using hlv k hk
      · rw [ihr]
        refine ⟨hbr, fun k hk => ⟨?_, (hks k (List.mem_cons_of_mem _ (List.mem_append_right _ hk))).2⟩⟩
        simpa [okLow, decide_eq_true_eq] using hrv k hk

/-- The validator decides exactly the BST invariant. -/
theorem isValidBST_iff (t : Tree) : isValidBST t = true ↔ IsBST t := by
  rw [isValidBST, helper_iff]
  simp [okLow, okHigh]

/-- C2: `isValidBST` returns true iff every node's left-subtree keys are
strictly below and right-subtree keys strictly above its own key,
transitively over whole subtrees; the empty tree is valid. -/
theorem c2_isValidBST_correct :
    (∀ t : Tree, isValidBST t = true ↔ IsBST t) ∧ isValidBST Tree.nil = true :=
  ⟨isValidBST_iff, rfl⟩

/-- C3: empty inputs are not an error: `buildTree [] []` returns the empty
tree, and `isValidBST` accepts the empty tree. -/
theorem c3_empty_base :
    buildTree [] [] = some Tree.nil ∧ isValidBST Tree.nil = true :=
  ⟨rfl, rfl⟩

/-- C4: the tree `5 / (1, 4 with left child 3)` is rejected — the grandchild
4 sits in the right subtree of 5 yet is smaller than 5, a violation visible
only through transitive bounds. -/
theorem c4_bst_negative :
    isValidBST (Tree.node 5 (Tree.node 1 Tree.nil Tree.nil)
      (Tree.node 4 (Tree.node 3 Tree.nil Tree.nil) Tree.nil)) = false := by
  decide

/-- C9: no false rejection from the sentinel bounds: every tree satisfying
the BST invariant is accepted, whatever extreme key values it contains —
the unbounded sentinels (`float('±inf')` in the source, `none` here) lie
strictly outside every integer key. -/
theorem c9_boundary_values (t : Tree) (h : IsBST t) : isValidBST t = true :=
  (isValidBST_iff t).mpr h

/-- C9 witness: a BST holding the extreme 64-bit key values is accepted. -/
theorem c9_boundary_values_witness :
    IsBST (Tree.node 0 (Tree.node (-9223372036854775808) Tree.nil Tree.nil)
        (Tree.node 9223372036854775807 Tree.nil Tree.nil)) ∧
      isValidBST (Tree.node 0 (Tree.node (-9223372036854775808) Tree.nil Tree.nil)
        (Tree.node 9223372036854775807 Tree.nil Tree.nil)) = true :=
  ⟨by decide, c9_boundary_values _ (by decide)⟩

/-! ## Claims about the builder -/

/-- C1: round-trip — for every tree with distinct node values, rebuilding
from its preorder and inorder traversals yields a tree whose own traversals
equal those inputs exactly. -/
theorem c1_roundtrip (t : Tree) (h : (inorderOf t).Nodup) :
    ∃ t', buildTree (preorderOf t) (inorderOf t) = some t' ∧
      preorderOf t' = preorderOf t ∧ inorderOf t' = inorderOf t :=
  ⟨t, buildTree_of_traversals t h, rfl, rfl⟩

/-- C1 witness: the worked example of the source file. -/
theorem c1_roundtrip_witness :
    (inorderOf (Tree.node 3 (Tree.node 9 Tree.nil Tree.nil)
        (Tree.node 20 (Tree.node 15 Tree.nil Tree.nil) (Tree.node 7 Tree.nil Tree.nil)))).Nodup ∧
      ∃ t', buildTree
          (preorderOf (Tree.node 3 (Tree.node 9 Tree.nil Tree.nil)
            (Tree.node 20 (Tree.node 15 Tree.nil Tree.nil) (Tree.node 7 Tree.nil Tree.nil))))
          (inorderOf (Tree.node 3 (Tree.node 9 Tree.nil Tree.nil)
            (Tree.node 20 (Tree.node 15 Tree.nil Tree.nil) (Tree.node 7 Tree.nil Tree.nil))))
          = some t' ∧
        preorderOf t' = preorderOf (Tree.node 3 (Tree.node 9 Tree.nil Tree.nil)
          (Tree.node 20 (Tree.node 15 Tree.nil Tree.nil) (Tree.node 7 Tree.nil Tree.nil))) ∧
        inorderOf t' = inorderOf (Tree.node 3 (Tree.node 9 Tree.nil Tree.nil)
          (Tree.node 20 (Tree.node 15 Tree.nil Tree.nil) (Tree.node 7 Tree.nil Tree.nil))) :=
  ⟨by decide, c1_roundtrip _ (by decide)⟩

/-- C6: totality under the preconditions — when the two inputs are the
traversals of one tree with distinct values, the recursion ends in `ok`
(no `IndexError`, no `KeyError`, so `buildTree` returns a tree), and the
validator is total on every tree. -/
theorem c6_totality (pre ino : List Int)
    (h : ∃ t, (inorderOf t).Nodup ∧ pre = preorderOf t ∧ ino = inorderOf t) :
    (∃ t k, buildRecF pre (lastIdxOf ino) (pre.length + 1)
        0 ((ino.length : Int) - 1) 0 = .ok t k ∧ buildTree pre ino = some t) ∧
      ∀ t', isValidBST t' = true ∨ isValidBST t' = false := by
  obtain ⟨t, hnd, rfl, rfl⟩ := h
  refine ⟨⟨t, size t, buildRecF_run t hnd, buildTree_of_traversals t hnd⟩, ?_⟩
  intro t'
  exact Bool.eq_false_or_eq_true (isValidBST t')

/-- C6 witness at the worked example of the source file. -/
theorem c6_totality_witness :
    (∃ t, (inorderOf t).Nodup ∧ ([3, 9, 20, 15, 7] : List Int) = preorderOf t ∧
        ([9, 3, 15, 20, 7] : List Int) = inorderOf t) ∧
      ((∃ t k, buildRecF [3, 9, 20, 15, 7] (lastIdxOf [9, 3, 15, 20, 7])
          (([3, 9, 20, 15, 7] : List Int).length + 1)
          0 ((([9, 3, 15, 20, 7] : List Int).length : Int) - 1) 0 = .ok t k ∧
          buildTree [3, 9, 20, 15, 7] [9, 3, 15, 20, 7] = some t) ∧
        ∀ t', isValidBST t' = true ∨ isValidBST t' = false) :=
  ⟨⟨Tree.node 3 (Tree.node 9 Tree.nil Tree.nil)
      (Tree.node 20 (Tree.node 15 Tree.nil Tree.nil) (Tree.node 7 Tree.nil Tree.nil)),
    by decide, by decide, by decide⟩,
   c6_totality _ _ ⟨Tree.node 3 (Tree.node 9 Tree.nil Tree.nil)
      (Tree.node 20 (Tree.node 15 Tree.nil Tree.nil) (Tree.node 7 Tree.nil Tree.nil)),
    by decide, by decide, by decide⟩⟩

/-- C7: malformed input — whenever a preorder value consumed during the
construction is absent from the map, the step raises `KeyError` (first
conjunct), a `KeyError` outcome makes `buildTree` raise rather than return
a tree (second conjunct), and the map lookup fails exactly for values
absent from the inorder sequence (third conjunct). -/
theorem c7_malformed_error :
    (∀ (pre : List Int) (m : Int → Option Nat) (f : Nat) (lb rb : Int)
        (cur : Nat) (rv : Int),
        ¬ lb > rb → pre.get? cur = some rv → m rv = none →
        buildRecF pre m (f + 1) lb rb cur = .keyErr 1) ∧
      (∀ (pre ino : List Int) (k : Nat),
        buildRecF pre (lastIdxOf ino) (pre.length + 1)
          0 ((ino.length : Int) - 1) 0 = .keyErr k →
        buildTree pre ino = none) ∧
      ∀ (ino : List Int) (v : Int), lastIdxOf ino v = none ↔ v ∉ ino := by
  refine ⟨?_, ?_, lastIdxOf_eq_none_iff⟩
  · intro pre m f lb rb cur rv hb hg hm
    rw [buildRecF, if_neg hb]
    simp only [hg, hm]
  · intro pre ino k h
    unfold buildTree
    rw [h]

/-- C7 witness: `preorder = [3, 5]`, `inorder = [7, 3]` — the second
consumed preorder value 5 is absent from inorder, so the build raises. -/
theorem c7_malformed_error_witness :
    buildRecF [3, 5] (lastIdxOf [7, 3]) (([3, 5] : List Int).length + 1)
        0 ((([7, 3] : List Int).length : Int) - 1) 0 = .keyErr 2 ∧
      buildTree [3, 5] [7, 3] = none ∧ lastIdxOf [7, 3] 5 = none :=
  ⟨by decide, c7_malformed_error.2.1 [3, 5] [7, 3] 2 (by decide),
    (c7_malformed_error.2.2 [7, 3] 5).mpr (by decide)⟩

/-- C8: purity and effect scoping — a `buildTree` call's result is the pure
function `buildTree` of its two input lists, independent of whatever value
the instance attribute `preorder_idx` held before the call (the call resets
it), so the mutable cursor cannot carry information from one build call
into the next. -/
theorem c8_purity (s1 s2 : Option Nat) (pre ino pre2 ino2 : List Int) :
    (buildTreeCall s1 pre ino).1 = buildTree pre ino ∧
      (buildTreeCall ((buildTreeCall s2 pre2 ino2).2) pre ino).1 =
        (buildTreeCall s1 pre ino).1 := by
  constructor
  · unfold buildTreeCall buildTree
    cases buildRecF pre (lastIdxOf ino) (pre.length + 1)
        0 ((ino.length : Int) - 1) 0 <;> rfl
  · unfold buildTreeCall
    cases buildRecF pre (lastIdxOf ino) (pre.length + 1)
        0 ((ino.length : Int) - 1) 0 <;> rfl

/-- C10: a non-empty preorder together with an empty inorder silently
produces the empty tree: the initial range `[0, -1]` hits the base case at
once, no preorder element is consumed and no error is raised. -/
theorem c10_empty_inorder (pre : List Int) (_h : pre ≠ []) :
    buildTree pre [] = some Tree.nil ∧
      buildRecF pre (lastIdxOf []) (pre.length + 1) 0 (-1) 0 = .ok Tree.nil 0 := by
  have h2 : buildRecF pre (lastIdxOf []) (pre.length + 1) 0 (-1) 0 = .ok Tree.nil 0 := by
    rw [buildRecF, if_pos (by norm_num)]
  refine ⟨?_, h2⟩
  unfold buildTree
  have e : ((([] : List Int).length : Nat) : Int) - 1 = (-1 : Int) := by simp
  rw [e, h2]

/-- C5: refinement equivalence — on every valid input pair (the preorder
and inorder traversals of one binary tree with distinct values), the
hashmap-recursive, the linear-scan recursive and the iterative stack-based
builders all return the same, structurally equal tree. -/
theorem c5_three_versions_agree (pre ino : List Int) (t : Tree)
    (hnd : (inorderOf t).Nodup) (hp : pre = preorderOf t) (hi : ino = inorderOf t) :
    buildTree pre ino = some t ∧ buildTree_v2 pre ino = some t ∧
      buildTree_v3 pre ino = some t ∧
      buildTree_v2 pre ino = buildTree pre ino ∧
      buildTree_v3 pre ino = buildTree pre ino := by
  subst hp
  subst hi
  refine ⟨buildTree_of_traversals t hnd, buildTreeV2_of_traversals t hnd,
    buildTreeV3_of_traversals t hnd, ?_, ?_⟩
  · rw [buildTree_of_traversals t hnd, buildTreeV2_of_traversals t hnd]
  · rw [buildTree_of_traversals t hnd, buildTreeV3_of_traversals t hnd]

/-- C5 witness: the worked example of the source file, through all three
implementations. -/
theorem c5_three_versions_agree_witness :
    ((inorderOf (Tree.node 3 (Tree.node 9 Tree.nil Tree.nil)
        (Tree.node 20 (Tree.node 15 Tree.nil Tree.nil) (Tree.node 7 Tree.nil Tree.nil)))).Nodup ∧
      ([3, 9, 20, 15, 7] : List Int) = preorderOf (Tree.node 3 (Tree.node 9 Tree.nil Tree.nil)
        (Tree.node 20 (Tree.node 15 Tree.nil Tree.nil) (Tree.node 7 Tree.nil Tree.nil))) ∧
      ([9, 3, 15, 20, 7] : List Int) = inorderOf (Tree.node 3 (Tree.node 9 Tree.nil Tree.nil)
        (Tree.node 20 (Tree.node 15 Tree.nil Tree.nil) (Tree.node 7 Tree.nil Tree.nil)))) ∧
      (buildTree [3, 9, 20, 15, 7] [9, 3, 15, 20, 7] =
          some (Tree.node 3 (Tree.node 9 Tree.nil Tree.nil)
            (Tree.node 20 (Tree.node 15 Tree.nil Tree.nil) (Tree.node 7 Tree.nil Tree.nil))) ∧
        buildTree_v2 [3, 9, 20, 15, 7] [9, 3, 15, 20, 7] =
          some (Tree.node 3 (Tree.node 9 Tree.nil Tree.nil)
            (Tree.node 20 (Tree.node 15 Tree.nil Tree.nil) (Tree.node 7 Tree.nil Tree.nil))) ∧
        buildTree_v3 [3, 9, 20, 15, 7] [9, 3, 15, 20, 7] =
          some (Tree.node 3 (Tree.node 9 Tree.nil Tree.nil)
            (Tree.node 20 (Tree.node 15 Tree.nil Tree.nil) (Tree.node 7 Tree.nil Tree.nil))) ∧
        buildTree_v2 [3, 9, 20, 15, 7] [9, 3, 15, 20, 7] =
          buildTree [3, 9, 20, 15, 7] [9, 3, 15, 20, 7] ∧
        buildTree_v3 [3, 9, 20, 15, 7] [9, 3, 15, 20, 7] =
          buildTree [3, 9, 20, 15, 7] [9, 3, 15, 20, 7]) :=
  ⟨⟨by decide, by decide, by decide⟩,
    c5_three_versions_agree [3, 9, 20, 15, 7] [9, 3, 15, 20, 7]
      (Tree.node 3 (Tree.node 9 Tree.nil Tree.nil)
        (Tree.node 20 (Tree.node 15 Tree.nil Tree.nil) (Tree.node 7 Tree.nil Tree.nil)))
      (by decide) (by decide) (by decide)⟩

/-- C10 witness. -/
theorem c10_empty_inorder_witness :
    ([3, 9, 20] : List Int) ≠ [] ∧
      (buildTree [3, 9, 20] [] = some Tree.nil ∧
        buildRecF [3, 9, 20] (lastIdxOf []) (([3, 9, 20] : List Int).length + 1)
          0 (-1) 0 = .ok Tree.nil 0) :=
  ⟨by decide, c10_empty_inorder [3, 9, 20] (by decide)⟩

end Trees
